import Mathlib

/-!
Verification of the ROC-curve / AUC evaluator described by the repository
specification.  The repository itself (index.ipynb) delegates the actual
computation to the external library functions sklearn.metrics.roc_curve and
sklearn.metrics.auc, whose implementations are not part of the repository
sources; the evaluator is therefore modelled here from the specification
text, as a pure function over a list of binary ground-truth labels and a
list of rational-valued classifier scores.

Design of the embedding:
* a label is a Bool (true = positive class, false = negative class);
* a score is a rational number (the spec only requires real-valued,
  order-comparable scores, and every algorithmic step uses ordering and
  exact arithmetic only, so rationals embed the computation faithfully);
* a threshold is a `WithTop ℚ`, since the boundary ROC point sits at
  threshold = positive infinity;
* fallible computations return `Except RocError`.
-/

/-- The error taxonomy of the spec (section 7): malformed call, or a rate
with a zero denominator because the ground truth has only one class. -/
inductive RocError where
  | invalidInput
  | undefinedRate
deriving DecidableEq

/-- One ROC point: false-positive rate, true-positive rate, and the
decision threshold that produced them. -/
structure ROCPoint where
  fpr : ℚ
  tpr : ℚ
  threshold : WithTop ℚ
deriving DecidableEq

/-- An observation pair (label, score) counts as a true positive at
threshold t when its label is positive and its score is at or above t. -/
def posHit (t : ℚ) (p : Bool × ℚ) : Bool := p.1 && decide (t ≤ p.2)

/-- An observation pair counts as a false positive at threshold t when its
label is negative and its score is at or above t. -/
def negHit (t : ℚ) (p : Bool × ℚ) : Bool := !p.1 && decide (t ≤ p.2)

/-- Number of true positives at threshold t: positive-labelled
observations with score at or above t. -/
def tpCount (pairs : List (Bool × ℚ)) (t : ℚ) : ℕ := pairs.countP (posHit t)

/-- Number of false positives at threshold t: negative-labelled
observations with score at or above t. -/
def fpCount (pairs : List (Bool × ℚ)) (t : ℚ) : ℕ := pairs.countP (negHit t)

/-- Total number of positive ground-truth labels. -/
def totalPos (labels : List Bool) : ℕ := labels.countP (fun l => l)

/-- Total number of negative ground-truth labels. -/
def totalNeg (labels : List Bool) : ℕ := labels.countP (fun l => !l)

/-- The candidate decision thresholds: the distinct score values, in
descending order (the sweep runs from high threshold to low). -/
def thresholdsOf (scores : List ℚ) : List ℚ :=
  scores.dedup.insertionSort (fun a b => b ≤ a)

/-- The ROC point emitted at a finite threshold t: fpr is the false
positives over the total negatives, tpr the true positives over the total
positives. -/
def mkPoint (pairs : List (Bool × ℚ)) (P N : ℕ) (t : ℚ) : ROCPoint :=
  ⟨(fpCount pairs t : ℚ) / (N : ℚ), (tpCount pairs t : ℚ) / (P : ℚ), (t : WithTop ℚ)⟩

/-- The boundary ROC point (0, 0) at threshold = positive infinity:
classify nothing as positive. -/
def rocBoundary : ROCPoint := ⟨0, 0, ⊤⟩

/-- Modelled from the spec: the contract compute_roc(labels, scores) of
section 4.1.  The repository source only calls the external library
function sklearn.metrics.roc_curve, whose implementation is absent, so the
algorithm is taken from the specification text: validate the input
(matching lengths, nonempty, both classes present), then sweep the
distinct score values in descending order, batching tied scores, emitting
one (fpr, tpr, threshold) point per distinct score, with the boundary
point (0, 0, +infinity) prepended. -/
def compute_roc (labels : List Bool) (scores : List ℚ) :
    Except RocError (List ROCPoint) :=
  if labels.length ≠ scores.length ∨ labels = [] then .error .invalidInput
  else if totalPos labels = 0 ∨ totalNeg labels = 0 then .error .undefinedRate
  else .ok (rocBoundary ::
    (thresholdsOf scores).map
      (mkPoint (labels.zip scores) (totalPos labels) (totalNeg labels)))

/-- The trapezoid area contributed by one adjacent pair of ROC points. -/
def trapArea (p q : ROCPoint) : ℚ := (q.fpr - p.fpr) * (q.tpr + p.tpr) / 2

/-- Trapezoidal sum over adjacent pairs of a list of ROC points. -/
def trapSum : List ROCPoint → ℚ
  | p :: q :: rest => trapArea p q + trapSum (q :: rest)
  | _ => 0

/-- Modelled from the spec: the contract compute_auc(roc_points) of
section 4.1.  The repository source only calls the external library
function sklearn.metrics.auc, whose implementation is absent, so the
algorithm is taken from the specification text: trapezoidal integration of
tpr over fpr across consecutive points, failing with InvalidInputError on
fewer than two points. -/
def compute_auc (points : List ROCPoint) : Except RocError ℚ :=
  if points.length < 2 then .error .invalidInput else .ok (trapSum points)

/-- The end-to-end evaluation: ROC points from the labelled scores, then
the area under the resulting curve. -/
def aucOf (labels : List Bool) (scores : List ℚ) : Except RocError ℚ :=
  match compute_roc labels scores with
  | .error e => .error e
  | .ok pts => compute_auc pts

/-- Modelled from the spec: the calling convention of the notebook, where
roc_curve returns the three parallel arrays fpr, tpr, thresholds that the
plotting code indexes in lockstep.  The implementation behind the call is
the absent library function; its result shape is modelled as the three
per-point projections of compute_roc. -/
def roc_curve (labels : List Bool) (scores : List ℚ) :
    Except RocError (List ℚ × List ℚ × List (WithTop ℚ)) :=
  match compute_roc labels scores with
  | .error e => .error e
  | .ok pts =>
      .ok (pts.map ROCPoint.fpr, pts.map ROCPoint.tpr, pts.map ROCPoint.threshold)

/-- The fpr of the i-th point of a list (boundary point as default). -/
def fprAt (l : List ROCPoint) (i : ℕ) : ℚ := (l.getD i rocBoundary).fpr

/-- The tpr of the i-th point of a list (boundary point as default). -/
def tprAt (l : List ROCPoint) (i : ℕ) : ℚ := (l.getD i rocBoundary).tpr

deriving instance DecidableEq for Except

/-- Concrete evaluation of compute_roc on a two-observation input, used to
discharge hypotheses at concrete inputs. -/
theorem compute_roc_example : compute_roc [true, false] [1, 0] =
    .ok [⟨0, 0, ⊤⟩, ⟨0, 1, (1 : ℚ)⟩, ⟨1, 1, (0 : ℚ)⟩] := by
  simp +decide [compute_roc, totalPos, totalNeg, thresholdsOf, mkPoint, rocBoundary,
    tpCount, fpCount, posHit, negHit, List.insertionSort, List.orderedInsert,
    List.dedup_cons_of_mem, List.dedup_cons_of_not_mem, List.countP_cons]

/-- Concrete end-to-end evaluation: perfect separation on two
observations gives AUC exactly 1. -/
theorem aucOf_example : aucOf [true, false] [1, 0] = .ok 1 := by
  simp +decide [aucOf, compute_roc, compute_auc, trapSum, trapArea, totalPos, totalNeg,
    thresholdsOf, mkPoint, rocBoundary, tpCount, fpCount, posHit, negHit,
    List.insertionSort, List.orderedInsert, List.dedup_cons_of_mem,
    List.dedup_cons_of_not_mem, List.countP_cons]

/-- Concrete evaluation of the spec scenario with inverted scores: the
negative observation scored higher, giving AUC 0. -/
theorem aucOf_inverted_example : aucOf [true, false] [0, 1] = .ok 0 := by
  simp +decide [aucOf, compute_roc, compute_auc, trapSum, trapArea, totalPos, totalNeg,
    thresholdsOf, mkPoint, rocBoundary, tpCount, fpCount, posHit, negHit,
    List.insertionSort, List.orderedInsert, List.dedup_cons_of_mem,
    List.dedup_cons_of_not_mem, List.countP_cons]

/-- Concrete evaluation of the spec scenario with all scores tied: a
single non-trivial point after the boundary, giving AUC 1/2. -/
theorem aucOf_tied_example :
    aucOf [true, true, false, false] [1/2, 1/2, 1/2, 1/2] = .ok (1/2) := by
  simp +decide [aucOf, compute_roc, compute_auc, trapSum, trapArea, totalPos, totalNeg,
    thresholdsOf, mkPoint, rocBoundary, tpCount, fpCount, posHit, negHit,
    List.insertionSort, List.orderedInsert, List.dedup_cons_of_mem,
    List.dedup_cons_of_not_mem, List.countP_cons]

/-! ### Basic counting helpers -/

theorem countP_zip_fst (f : Bool → Bool) :
    ∀ (ls : List Bool) (ss : List ℚ), ls.length = ss.length →
      (ls.zip ss).countP (fun p => f p.1) = ls.countP f
  | [], [], _ => rfl
  | [], _ :: _, h => by simp at h
  | _ :: _, [], h => by simp at h
  | l :: ls, s :: ss, h => by
    have hlen : ls.length = ss.length := by simpa using h
    by_cases hf : f l
    · simp [List.countP_cons, hf, countP_zip_fst f ls ss hlen]
    · simp [List.countP_cons, hf, countP_zip_fst f ls ss hlen]

theorem countP_zip_hit_le (f : Bool → Bool) (q : ℚ → Bool)
    (ls : List Bool) (ss : List ℚ) (hlen : ls.length = ss.length) :
    (ls.zip ss).countP (fun p => f p.1 && q p.2) ≤ ls.countP f := by
  calc (ls.zip ss).countP (fun p => f p.1 && q p.2)
      ≤ (ls.zip ss).countP (fun p => f p.1) := by
        apply List.countP_mono_left
        intro x _ hx
        exact (Bool.and_elim_left hx)
    _ = ls.countP f := countP_zip_fst f ls ss hlen

theorem countP_zip_hit_eq (f : Bool → Bool) (q : ℚ → Bool)
    (ls : List Bool) (ss : List ℚ) (hlen : ls.length = ss.length)
    (hall : ∀ p ∈ ls.zip ss, f p.1 → q p.2) :
    (ls.zip ss).countP (fun p => f p.1 && q p.2) = ls.countP f := by
  calc (ls.zip ss).countP (fun p => f p.1 && q p.2)
      = (ls.zip ss).countP (fun p => f p.1) := by
        apply List.countP_congr
        intro x hx
        constructor
        · intro h; exact Bool.and_elim_left h
        · intro h
          have := hall x hx h
          simp [h, this]
    _ = ls.countP f := countP_zip_fst f ls ss hlen

theorem exists_zip_of_countP (f : Bool → Bool)
    (ls : List Bool) (ss : List ℚ) (hlen : ls.length = ss.length)
    (h : ls.countP f ≠ 0) : ∃ p ∈ ls.zip ss, f p.1 := by
  by_contra hc
  push_neg at hc
  have h0 : (ls.zip ss).countP (fun p => f p.1) = 0 := by
    rw [List.countP_eq_zero]
    intro a ha
    simpa using hc a ha
  rw [countP_zip_fst f ls ss hlen] at h0
  exact h h0

/-! ### Properties of the descending threshold list -/

instance : IsTotal ℚ (fun a b => b ≤ a) := ⟨fun a b => le_total b a⟩

instance : IsTrans ℚ (fun a b => b ≤ a) := ⟨fun _ _ _ h h2 => le_trans h2 h⟩

theorem thresholdsOf_sorted (scores : List ℚ) :
    (thresholdsOf scores).Pairwise (fun a b => b ≤ a) :=
  List.sorted_insertionSort (fun a b => b ≤ a) scores.dedup

theorem thresholdsOf_perm (scores : List ℚ) :
    List.Perm (thresholdsOf scores) scores.dedup :=
  List.perm_insertionSort (fun a b => b ≤ a) scores.dedup

theorem thresholdsOf_nodup (scores : List ℚ) : (thresholdsOf scores).Nodup :=
  (thresholdsOf_perm scores).nodup_iff.mpr scores.nodup_dedup

theorem mem_thresholdsOf {scores : List ℚ} {s : ℚ} :
    s ∈ thresholdsOf scores ↔ s ∈ scores :=
  (thresholdsOf_perm scores).mem_iff.trans List.mem_dedup

theorem thresholdsOf_sorted_strict (scores : List ℚ) :
    (thresholdsOf scores).Pairwise (fun a b => b < a) := by
  have h := (thresholdsOf_sorted scores).and (thresholdsOf_nodup scores)
  exact h.imp (fun hab => lt_of_le_of_ne hab.1 (Ne.symm hab.2))

theorem thresholdsOf_eq_nil {scores : List ℚ} :
    thresholdsOf scores = [] ↔ scores = [] := by
  constructor
  · intro h
    by_contra hs
    rcases List.exists_mem_of_ne_nil scores hs with ⟨a, ha⟩
    have : a ∈ thresholdsOf scores := mem_thresholdsOf.mpr ha
    simp [h] at this
  · intro h
    subst h
    rfl

/-! ### Access lemmas for sorted lists -/

theorem getD_le_getD_of_sorted {l : List ℚ} (h : l.Pairwise (fun a b => b ≤ a))
    {i j : ℕ} (hij : i ≤ j) (hj : j < l.length) (d : ℚ) :
    l.getD j d ≤ l.getD i d := by
  have hi : i < l.length := lt_of_le_of_lt hij hj
  rw [List.getD_eq_getElem _ _ hj, List.getD_eq_getElem _ _ hi]
  rcases lt_or_eq_of_le hij with hlt | heq
  · exact (List.pairwise_iff_getElem.mp h) i j hi hj hlt
  · subst heq; exact le_refl _

/-! ### Characterization of a successful compute_roc -/

theorem compute_roc_ok_iff {labels : List Bool} {scores : List ℚ}
    {pts : List ROCPoint} :
    compute_roc labels scores = .ok pts ↔
      labels.length = scores.length ∧ labels ≠ [] ∧
      totalPos labels ≠ 0 ∧ totalNeg labels ≠ 0 ∧
      pts = rocBoundary :: (thresholdsOf scores).map
        (mkPoint (labels.zip scores) (totalPos labels) (totalNeg labels)) := by
  rw [compute_roc]
  split_ifs with h1 h2
  · simp only [false_iff]
    intro hc
    rcases h1 with h | h
    · exact h hc.1
    · exact hc.2.1 h
  · push_neg at h1
    simp only [false_iff]
    intro hc
    rcases h2 with h | h
    · exact hc.2.2.1 h
    · exact hc.2.2.2.1 h
  · push_neg at h1
    push_neg at h2
    constructor
    · intro h
      refine ⟨h1.1, h1.2, h2.1, h2.2, ?_⟩
      exact (Except.ok.inj h).symm
    · intro h
      rw [h.2.2.2.2]

/-! ### Count monotonicity and bounds -/

theorem tpCount_eq_countP (labels : List Bool) (scores : List ℚ) (t : ℚ) :
    tpCount (labels.zip scores) t =
      (labels.zip scores).countP
        (fun p => (fun l => l) p.1 && (fun s => decide (t ≤ s)) p.2) := rfl

theorem fpCount_eq_countP (labels : List Bool) (scores : List ℚ) (t : ℚ) :
    fpCount (labels.zip scores) t =
      (labels.zip scores).countP
        (fun p => (fun l => !l) p.1 && (fun s => decide (t ≤ s)) p.2) := rfl

theorem tpCount_le_totalPos {labels : List Bool} {scores : List ℚ}
    (hlen : labels.length = scores.length) (t : ℚ) :
    tpCount (labels.zip scores) t ≤ totalPos labels := by
  rw [tpCount_eq_countP, totalPos]
  exact countP_zip_hit_le (fun l => l) (fun s => decide (t ≤ s)) labels scores hlen

theorem fpCount_le_totalNeg {labels : List Bool} {scores : List ℚ}
    (hlen : labels.length = scores.length) (t : ℚ) :
    fpCount (labels.zip scores) t ≤ totalNeg labels := by
  rw [fpCount_eq_countP, totalNeg]
  exact countP_zip_hit_le (fun l => !l) (fun s => decide (t ≤ s)) labels scores hlen

theorem tpCount_antitone (pairs : List (Bool × ℚ)) {t t' : ℚ} (h : t ≤ t') :
    tpCount pairs t' ≤ tpCount pairs t := by
  apply List.countP_mono_left
  intro x _ hx
  rcases Bool.and_eq_true_iff.mp hx with ⟨h1, h2⟩
  rw [posHit, h1]
  simpa using le_trans h (of_decide_eq_true h2)

theorem fpCount_antitone (pairs : List (Bool × ℚ)) {t t' : ℚ} (h : t ≤ t') :
    fpCount pairs t' ≤ fpCount pairs t := by
  apply List.countP_mono_left
  intro x _ hx
  rcases Bool.and_eq_true_iff.mp hx with ⟨h1, h2⟩
  rw [negHit, h1]
  simpa using le_trans h (of_decide_eq_true h2)

theorem tpCount_of_all {labels : List Bool} {scores : List ℚ} {t : ℚ}
    (hlen : labels.length = scores.length) (hall : ∀ s ∈ scores, t ≤ s) :
    tpCount (labels.zip scores) t = totalPos labels := by
  rw [tpCount_eq_countP, totalPos]
  apply countP_zip_hit_eq (fun l => l) (fun s => decide (t ≤ s)) labels scores hlen
  intro p hp _
  exact decide_eq_true (hall p.2 (List.of_mem_zip hp).2)

theorem fpCount_of_all {labels : List Bool} {scores : List ℚ} {t : ℚ}
    (hlen : labels.length = scores.length) (hall : ∀ s ∈ scores, t ≤ s) :
    fpCount (labels.zip scores) t = totalNeg labels := by
  rw [fpCount_eq_countP, totalNeg]
  apply countP_zip_hit_eq (fun l => !l) (fun s => decide (t ≤ s)) labels scores hlen
  intro p hp _
  exact decide_eq_true (hall p.2 (List.of_mem_zip hp).2)

/-! ### Bounds on emitted points -/

theorem mkPoint_fpr_nonneg (pairs : List (Bool × ℚ)) (P N : ℕ) (t : ℚ) :
    0 ≤ (mkPoint pairs P N t).fpr :=
  div_nonneg (Nat.cast_nonneg _) (Nat.cast_nonneg _)

theorem mkPoint_tpr_nonneg (pairs : List (Bool × ℚ)) (P N : ℕ) (t : ℚ) :
    0 ≤ (mkPoint pairs P N t).tpr :=
  div_nonneg (Nat.cast_nonneg _) (Nat.cast_nonneg _)

theorem mkPoint_fpr_le_one {labels : List Bool} {scores : List ℚ}
    (hlen : labels.length = scores.length) (hN : totalNeg labels ≠ 0) (t : ℚ) :
    (mkPoint (labels.zip scores) (totalPos labels) (totalNeg labels) t).fpr ≤ 1 := by
  rw [mkPoint]
  have hNpos : (0 : ℚ) < (totalNeg labels : ℚ) :=
    Nat.cast_pos.mpr (Nat.pos_of_ne_zero hN)
  rw [div_le_one hNpos]
  exact_mod_cast fpCount_le_totalNeg hlen t

theorem mkPoint_tpr_le_one {labels : List Bool} {scores : List ℚ}
    (hlen : labels.length = scores.length) (hP : totalPos labels ≠ 0) (t : ℚ) :
    (mkPoint (labels.zip scores) (totalPos labels) (totalNeg labels) t).tpr ≤ 1 := by
  rw [mkPoint]
  have hPpos : (0 : ℚ) < (totalPos labels : ℚ) :=
    Nat.cast_pos.mpr (Nat.pos_of_ne_zero hP)
  rw [div_le_one hPpos]
  exact_mod_cast tpCount_le_totalPos hlen t

theorem roc_points_bounds {labels : List Bool} {scores : List ℚ}
    {pts : List ROCPoint} (hok : compute_roc labels scores = .ok pts) :
    ∀ p ∈ pts, 0 ≤ p.fpr ∧ p.fpr ≤ 1 ∧ 0 ≤ p.tpr ∧ p.tpr ≤ 1 := by
  rcases compute_roc_ok_iff.mp hok with ⟨hlen, _, hP, hN, hpts⟩
  subst hpts
  intro p hp
  rcases List.mem_cons.mp hp with h | h
  · subst h
    refine ⟨le_refl 0, zero_le_one, le_refl 0, zero_le_one⟩
  · rcases List.mem_map.mp h with ⟨t, _, ht⟩
    subst ht
    exact ⟨mkPoint_fpr_nonneg _ _ _ t, mkPoint_fpr_le_one hlen hN t,
      mkPoint_tpr_nonneg _ _ _ t, mkPoint_tpr_le_one hlen hP t⟩

/-! ### First and last emitted points -/

theorem sorted_desc_last_le {l : List ℚ} (h : l.Pairwise (fun a b => b ≤ a))
    (hne : 0 < l.length) {s : ℚ} (hs : s ∈ l) :
    l.getD (l.length - 1) 0 ≤ s := by
  rcases List.mem_iff_getElem.mp hs with ⟨j, hj, hjs⟩
  have hle : j ≤ l.length - 1 := by omega
  have := getD_le_getD_of_sorted h hle (by omega) 0
  rw [List.getD_eq_getElem _ _ hj] at this
  rw [hjs] at this
  exact this

theorem roc_fields {labels : List Bool} {scores : List ℚ} {pts : List ROCPoint}
    (hok : compute_roc labels scores = .ok pts) :
    pts = rocBoundary :: (thresholdsOf scores).map
      (mkPoint (labels.zip scores) (totalPos labels) (totalNeg labels)) :=
  (compute_roc_ok_iff.mp hok).2.2.2.2

theorem roc_scores_ne_nil {labels : List Bool} {scores : List ℚ}
    {pts : List ROCPoint} (hok : compute_roc labels scores = .ok pts) :
    scores ≠ [] := by
  rcases compute_roc_ok_iff.mp hok with ⟨hlen, hne, _, _, _⟩
  intro hc
  subst hc
  exact hne (List.length_eq_zero.mp hlen)

theorem roc_length {labels : List Bool} {scores : List ℚ} {pts : List ROCPoint}
    (hok : compute_roc labels scores = .ok pts) :
    pts.length = (thresholdsOf scores).length + 1 := by
  rw [roc_fields hok]
  simp

theorem roc_head {labels : List Bool} {scores : List ℚ} {pts : List ROCPoint}
    (hok : compute_roc labels scores = .ok pts) :
    pts.head? = some rocBoundary := by
  rw [roc_fields hok]
  rfl

theorem roc_last {labels : List Bool} {scores : List ℚ} {pts : List ROCPoint}
    (hok : compute_roc labels scores = .ok pts) :
    fprAt pts (pts.length - 1) = 1 ∧ tprAt pts (pts.length - 1) = 1 := by
  rcases compute_roc_ok_iff.mp hok with ⟨hlen, _, hP, hN, hpts⟩
  have hsne : scores ≠ [] := roc_scores_ne_nil hok
  have htne : thresholdsOf scores ≠ [] := fun hc => hsne (thresholdsOf_eq_nil.mp hc)
  have hm : 0 < (thresholdsOf scores).length := List.length_pos.mpr htne
  set thrs := thresholdsOf scores with hthrs
  set m := thrs.length with hmdef
  have hlenpts : pts.length = m + 1 := by rw [hpts]; simp
  have hidx : pts.length - 1 = (m - 1) + 1 := by omega
  have hmap : m - 1 < (thrs.map
      (mkPoint (labels.zip scores) (totalPos labels) (totalNeg labels))).length := by
    simp [hmdef]; omega
  have hthr : m - 1 < thrs.length := by omega
  have hget : pts.getD (pts.length - 1) rocBoundary =
      mkPoint (labels.zip scores) (totalPos labels) (totalNeg labels)
        (thrs.getD (m - 1) 0) := by
    rw [hidx, hpts, List.getD_cons_succ, List.getD_eq_getElem _ _ hmap,
      List.getElem_map, List.getD_eq_getElem _ _ hthr]
  have hall : ∀ s ∈ scores, thrs.getD (m - 1) 0 ≤ s := by
    intro s hs
    exact sorted_desc_last_le (thresholdsOf_sorted scores) hm
      (mem_thresholdsOf.mpr hs)
  have hfp : fpCount (labels.zip scores) (thrs.getD (m - 1) 0) = totalNeg labels :=
    fpCount_of_all hlen hall
  have htp : tpCount (labels.zip scores) (thrs.getD (m - 1) 0) = totalPos labels :=
    tpCount_of_all hlen hall
  constructor
  · rw [fprAt, hget, mkPoint, hfp]
    exact div_self (Nat.cast_ne_zero.mpr hN)
  · rw [tprAt, hget, mkPoint, htp]
    exact div_self (Nat.cast_ne_zero.mpr hP)

/-! ### Monotonicity of the emitted sequences -/

theorem roc_thresholds_strict {labels : List Bool} {scores : List ℚ}
    {pts : List ROCPoint} (hok : compute_roc labels scores = .ok pts) :
    (pts.map ROCPoint.threshold).Pairwise (fun a b => b < a) := by
  rw [roc_fields hok, List.map_cons, List.map_map]
  rw [List.pairwise_cons]
  constructor
  · intro b hb
    rcases List.mem_map.mp hb with ⟨t, _, ht⟩
    subst ht
    exact WithTop.coe_lt_top t
  · apply (thresholdsOf_sorted_strict scores).map
    intro a b hab
    exact WithTop.coe_lt_coe.mpr hab

theorem roc_fpr_pairwise {labels : List Bool} {scores : List ℚ}
    {pts : List ROCPoint} (hok : compute_roc labels scores = .ok pts) :
    (pts.map ROCPoint.fpr).Pairwise (fun a b => a ≤ b) := by
  rcases compute_roc_ok_iff.mp hok with ⟨hlen, _, hP, hN, hpts⟩
  rw [hpts, List.map_cons, List.map_map]
  rw [List.pairwise_cons]
  have hNpos : (0 : ℚ) < (totalNeg labels : ℚ) :=
    Nat.cast_pos.mpr (Nat.pos_of_ne_zero hN)
  constructor
  · intro b hb
    rcases List.mem_map.mp hb with ⟨t, _, ht⟩
    subst ht
    exact mkPoint_fpr_nonneg _ _ _ t
  · apply (thresholdsOf_sorted scores).map
    intro a b hab
    show (mkPoint _ _ _ a).fpr ≤ (mkPoint _ _ _ b).fpr
    rw [mkPoint, mkPoint]
    rw [div_le_div_iff_of_pos_right hNpos]
    exact_mod_cast fpCount_antitone (labels.zip scores) hab

theorem roc_tpr_pairwise {labels : List Bool} {scores : List ℚ}
    {pts : List ROCPoint} (hok : compute_roc labels scores = .ok pts) :
    (pts.map ROCPoint.tpr).Pairwise (fun a b => a ≤ b) := by
  rcases compute_roc_ok_iff.mp hok with ⟨hlen, _, hP, hN, hpts⟩
  rw [hpts, List.map_cons, List.map_map]
  rw [List.pairwise_cons]
  have hPpos : (0 : ℚ) < (totalPos labels : ℚ) :=
    Nat.cast_pos.mpr (Nat.pos_of_ne_zero hP)
  constructor
  · intro b hb
    rcases List.mem_map.mp hb with ⟨t, _, ht⟩
    subst ht
    exact mkPoint_tpr_nonneg _ _ _ t
  · apply (thresholdsOf_sorted scores).map
    intro a b hab
    show (mkPoint _ _ _ a).tpr ≤ (mkPoint _ _ _ b).tpr
    rw [mkPoint, mkPoint]
    rw [div_le_div_iff_of_pos_right hPpos]
    exact_mod_cast tpCount_antitone (labels.zip scores) hab

/-! ### The trapezoidal sum as an indexed sum -/

theorem trapSum_eq_sum : ∀ l : List ROCPoint,
    trapSum l = ∑ i ∈ Finset.range (l.length - 1),
      (fprAt l (i + 1) - fprAt l i) * (tprAt l (i + 1) + tprAt l i) / 2
  | [] => by simp [trapSum]
  | [a] => by simp [trapSum]
  | a :: b :: rest => by
    have ih := trapSum_eq_sum (b :: rest)
    have hlen : (a :: b :: rest).length - 1 = rest.length + 1 := by simp
    rw [hlen, Finset.sum_range_succ']
    have hshift : ∀ i : ℕ,
        (fprAt (a :: b :: rest) (i + 1 + 1) - fprAt (a :: b :: rest) (i + 1)) *
            (tprAt (a :: b :: rest) (i + 1 + 1) + tprAt (a :: b :: rest) (i + 1)) / 2 =
        (fprAt (b :: rest) (i + 1) - fprAt (b :: rest) i) *
            (tprAt (b :: rest) (i + 1) + tprAt (b :: rest) i) / 2 := by
      intro i
      simp [fprAt, tprAt]
    have hzero :
        (fprAt (a :: b :: rest) (0 + 1) - fprAt (a :: b :: rest) 0) *
            (tprAt (a :: b :: rest) (0 + 1) + tprAt (a :: b :: rest) 0) / 2 =
        trapArea a b := by
      rw [fprAt, fprAt, tprAt, tprAt]
      rw [trapArea]
      norm_num
    rw [Finset.sum_congr rfl (fun i _ => hshift i), hzero]
    have hlen2 : (b :: rest).length - 1 = rest.length := by simp
    rw [hlen2] at ih
    rw [trapSum, ih]
    ring

/-! ### The validity invariant of a ROC point sequence -/

/-- The ordering and monotonicity invariants the spec guarantees for the
output of compute_roc and assumes for the input of compute_auc: at least
two points, fpr non-decreasing, all rates within the unit interval, first
point (0, 0) and last point (1, 1). -/
def ValidROC (l : List ROCPoint) : Prop :=
  2 ≤ l.length ∧
  (∀ i < l.length - 1, fprAt l i ≤ fprAt l (i + 1)) ∧
  (∀ i < l.length, 0 ≤ fprAt l i ∧ fprAt l i ≤ 1 ∧ 0 ≤ tprAt l i ∧ tprAt l i ≤ 1) ∧
  fprAt l 0 = 0 ∧ tprAt l 0 = 0 ∧
  fprAt l (l.length - 1) = 1 ∧ tprAt l (l.length - 1) = 1

instance (l : List ROCPoint) : Decidable (ValidROC l) := by
  rw [ValidROC]
  infer_instance

theorem getD_mem_of_lt {l : List ROCPoint} {i : ℕ} (h : i < l.length) :
    l.getD i rocBoundary ∈ l := by
  rw [List.getD_eq_getElem _ _ h]
  exact List.getElem_mem h

/-- Claim C2: for every point sequence satisfying the ordering and
monotonicity invariants, compute_auc returns the trapezoidal sum of
(fpr[i] - fpr[i-1]) * (tpr[i] + tpr[i-1]) / 2 over adjacent pairs, the
value lies in [0, 1], and it equals exactly 1/2 whenever fpr equals tpr
at every point. -/
theorem auc_trapezoid_bounds (pts : List ROCPoint) (hv : ValidROC pts) :
    compute_auc pts = .ok (∑ i ∈ Finset.range (pts.length - 1),
        (fprAt pts (i + 1) - fprAt pts i) * (tprAt pts (i + 1) + tprAt pts i) / 2) ∧
    ∀ A : ℚ, compute_auc pts = .ok A →
      0 ≤ A ∧ A ≤ 1 ∧ ((∀ p ∈ pts, p.fpr = p.tpr) → A = 1 / 2) := by
  obtain ⟨hlen, hmono, hbound, hf0, ht0, hfl, htl⟩ := hv
  have hnot : ¬ pts.length < 2 := by omega
  have hauc : compute_auc pts = .ok (trapSum pts) := by
    rw [compute_auc, if_neg hnot]
  constructor
  · rw [hauc, trapSum_eq_sum]
  · intro A hA
    rw [hauc] at hA
    have hAeq : A = trapSum pts := (Except.ok.inj hA).symm
    subst hAeq
    rw [trapSum_eq_sum]
    have hterm_nonneg : ∀ i ∈ Finset.range (pts.length - 1),
        0 ≤ (fprAt pts (i + 1) - fprAt pts i) *
          (tprAt pts (i + 1) + tprAt pts i) / 2 := by
      intro i hi
      rw [Finset.mem_range] at hi
      have hi1 : i + 1 < pts.length := by omega
      have hi0 : i < pts.length := by omega
      refine div_nonneg (mul_nonneg ?_ ?_) (by norm_num)
      · linarith [hmono i hi]
      · linarith [(hbound (i + 1) hi1).2.2.1, (hbound i hi0).2.2.1]
    refine ⟨Finset.sum_nonneg hterm_nonneg, ?_, ?_⟩
    · have hstep : ∀ i ∈ Finset.range (pts.length - 1),
          (fprAt pts (i + 1) - fprAt pts i) *
            (tprAt pts (i + 1) + tprAt pts i) / 2 ≤
          fprAt pts (i + 1) - fprAt pts i := by
        intro i hi
        rw [Finset.mem_range] at hi
        have hi1 : i + 1 < pts.length := by omega
        have hi0 : i < pts.length := by omega
        have hd : 0 ≤ fprAt pts (i + 1) - fprAt pts i := by linarith [hmono i hi]
        have ht2 : (tprAt pts (i + 1) + tprAt pts i) / 2 ≤ 1 := by
          linarith [(hbound (i + 1) hi1).2.2.2, (hbound i hi0).2.2.2]
        calc (fprAt pts (i + 1) - fprAt pts i) *
              (tprAt pts (i + 1) + tprAt pts i) / 2
            = (fprAt pts (i + 1) - fprAt pts i) *
              ((tprAt pts (i + 1) + tprAt pts i) / 2) := by ring
          _ ≤ (fprAt pts (i + 1) - fprAt pts i) * 1 :=
              mul_le_mul_of_nonneg_left ht2 hd
          _ = fprAt pts (i + 1) - fprAt pts i := mul_one _
      have hsum := Finset.sum_le_sum hstep
      have htel : ∑ i ∈ Finset.range (pts.length - 1),
          (fprAt pts (i + 1) - fprAt pts i) =
          fprAt pts (pts.length - 1) - fprAt pts 0 :=
        Finset.sum_range_sub (fun i => fprAt pts i) (pts.length - 1)
      rw [htel, hf0, hfl] at hsum
      linarith
    · intro hd
      have hdi : ∀ i, i < pts.length → tprAt pts i = fprAt pts i := by
        intro i hi
        exact (hd _ (getD_mem_of_lt hi)).symm
      have hcong : ∀ i ∈ Finset.range (pts.length - 1),
          (fprAt pts (i + 1) - fprAt pts i) *
            (tprAt pts (i + 1) + tprAt pts i) / 2 =
          (fun j => fprAt pts j ^ 2 / 2) (i + 1) -
            (fun j => fprAt pts j ^ 2 / 2) i := by
        intro i hi
        rw [Finset.mem_range] at hi
        have hi1 : i + 1 < pts.length := by omega
        have hi0 : i < pts.length := by omega
        rw [hdi (i + 1) hi1, hdi i hi0]
        ring
      rw [Finset.sum_congr rfl hcong,
        Finset.sum_range_sub (fun j => fprAt pts j ^ 2 / 2) (pts.length - 1)]
      rw [hfl, hf0]
      norm_num

/-! ### Claims C1, C3, C4, C5, C10 -/

/-- Claim C1: for every valid input, compute_roc emits exactly one ROC
point per distinct score value plus the prepended boundary point: the
number of points is the number of distinct scores plus one, and the
finite thresholds are exactly the distinct score values. -/
theorem roc_one_point_per_distinct_score (labels : List Bool)
    (scores : List ℚ) (pts : List ROCPoint)
    (hok : compute_roc labels scores = .ok pts) :
    pts.length = scores.dedup.length + 1 ∧
    List.Perm (pts.tail.map ROCPoint.threshold)
      (scores.dedup.map (fun s : ℚ => (s : WithTop ℚ))) := by
  have hf := roc_fields hok
  constructor
  · rw [hf]
    simp [(thresholdsOf_perm scores).length_eq]
  · rw [hf]
    simp only [List.tail_cons, List.map_map]
    have hcomp : ROCPoint.threshold ∘
        mkPoint (labels.zip scores) (totalPos labels) (totalNeg labels) =
        fun t : ℚ => (t : WithTop ℚ) := rfl
    rw [hcomp]
    exact (thresholdsOf_perm scores).map _

/-- Claim C3: for every valid input, the points are ordered by
non-increasing threshold with no duplicate thresholds, and the fpr and tpr
sequences are monotonically non-decreasing along that order. -/
theorem roc_ordering_invariants (labels : List Bool) (scores : List ℚ)
    (pts : List ROCPoint) (hok : compute_roc labels scores = .ok pts) :
    (pts.map ROCPoint.threshold).Pairwise (fun a b => b ≤ a) ∧
    (pts.map ROCPoint.threshold).Nodup ∧
    (pts.map ROCPoint.fpr).Pairwise (fun a b => a ≤ b) ∧
    (pts.map ROCPoint.tpr).Pairwise (fun a b => a ≤ b) :=
  ⟨(roc_thresholds_strict hok).imp (fun h => le_of_lt h),
   (roc_thresholds_strict hok).imp (fun h => ne_of_gt h),
   roc_fpr_pairwise hok, roc_tpr_pairwise hok⟩

/-- Claim C4: for every valid input, the first point is (0, 0) at
threshold = positive infinity, the last point is (1, 1), and every rate
lies in the unit interval. -/
theorem roc_endpoint_invariants (labels : List Bool) (scores : List ℚ)
    (pts : List ROCPoint) (hok : compute_roc labels scores = .ok pts) :
    pts.head? = some rocBoundary ∧
    fprAt pts (pts.length - 1) = 1 ∧ tprAt pts (pts.length - 1) = 1 ∧
    ∀ p ∈ pts, 0 ≤ p.fpr ∧ p.fpr ≤ 1 ∧ 0 ≤ p.tpr ∧ p.tpr ≤ 1 :=
  ⟨roc_head hok, (roc_last hok).1, (roc_last hok).2, roc_points_bounds hok⟩

/-- A well-formed input whose ground truth contains only one class makes
compute_roc fail with UndefinedRateError. -/
theorem compute_roc_single_class (labels : List Bool) (scores : List ℚ)
    (hlen : labels.length = scores.length) (hne : labels ≠ [])
    (h : (∀ l ∈ labels, l = true) ∨ (∀ l ∈ labels, l = false)) :
    compute_roc labels scores = .error .undefinedRate := by
  have h1 : ¬(labels.length ≠ scores.length ∨ labels = []) := by
    simp [hlen, hne]
  have h2 : totalPos labels = 0 ∨ totalNeg labels = 0 := by
    rcases h with h | h
    · right
      rw [totalNeg, List.countP_eq_zero]
      intro l hl
      simp [h l hl]
    · left
      rw [totalPos, List.countP_eq_zero]
      intro l hl
      simp [h l hl]
  rw [compute_roc, if_neg h1, if_pos h2]

/-- Claim C5: on a well-formed input whose ground truth contains only one
class, compute_roc fails with UndefinedRateError and produces no result. -/
theorem roc_single_class_error (labels : List Bool) (scores : List ℚ)
    (hlen : labels.length = scores.length) (hne : labels ≠ [])
    (h : (∀ l ∈ labels, l = true) ∨ (∀ l ∈ labels, l = false)) :
    compute_roc labels scores = .error .undefinedRate :=
  compute_roc_single_class labels scores hlen hne h

/-- Claim C10: a successful roc_curve call returns three parallel lists of
identical length, the per-point projections of the ROC point sequence. -/
theorem roc_curve_parallel_outputs (labels : List Bool) (scores : List ℚ)
    (fprs tprs : List ℚ) (thrs : List (WithTop ℚ))
    (h : roc_curve labels scores = .ok (fprs, tprs, thrs)) :
    ∃ pts, compute_roc labels scores = .ok pts ∧
      fprs = pts.map ROCPoint.fpr ∧ tprs = pts.map ROCPoint.tpr ∧
      thrs = pts.map ROCPoint.threshold ∧
      fprs.length = pts.length ∧ tprs.length = pts.length ∧
      thrs.length = pts.length := by
  rw [roc_curve] at h
  cases hcr : compute_roc labels scores with
  | error e =>
      rw [hcr] at h
      cases h
  | ok pts =>
      rw [hcr] at h
      have heq := Except.ok.inj h
      rw [Prod.mk.injEq, Prod.mk.injEq] at heq
      obtain ⟨hf, ht, hh⟩ := heq
      refine ⟨pts, rfl, hf.symm, ht.symm, hh.symm, ?_, ?_, ?_⟩
      · rw [← hf, List.length_map]
      · rw [← ht, List.length_map]
      · rw [← hh, List.length_map]

theorem roc_one_point_per_distinct_score_witness :
    ([⟨0, 0, ⊤⟩, ⟨0, 1, (1 : ℚ)⟩, ⟨1, 1, (0 : ℚ)⟩] : List ROCPoint).length =
      ([1, 0] : List ℚ).dedup.length + 1 ∧
    List.Perm
      (([⟨0, 0, ⊤⟩, ⟨0, 1, (1 : ℚ)⟩, ⟨1, 1, (0 : ℚ)⟩] :
          List ROCPoint).tail.map ROCPoint.threshold)
      (([1, 0] : List ℚ).dedup.map (fun s : ℚ => (s : WithTop ℚ))) :=
  roc_one_point_per_distinct_score [true, false] [1, 0] _ compute_roc_example

theorem roc_ordering_invariants_witness :
    (([⟨0, 0, ⊤⟩, ⟨0, 1, (1 : ℚ)⟩, ⟨1, 1, (0 : ℚ)⟩] :
        List ROCPoint).map ROCPoint.threshold).Pairwise (fun a b => b ≤ a) ∧
    (([⟨0, 0, ⊤⟩, ⟨0, 1, (1 : ℚ)⟩, ⟨1, 1, (0 : ℚ)⟩] :
        List ROCPoint).map ROCPoint.threshold).Nodup ∧
    (([⟨0, 0, ⊤⟩, ⟨0, 1, (1 : ℚ)⟩, ⟨1, 1, (0 : ℚ)⟩] :
        List ROCPoint).map ROCPoint.fpr).Pairwise (fun a b => a ≤ b) ∧
    (([⟨0, 0, ⊤⟩, ⟨0, 1, (1 : ℚ)⟩, ⟨1, 1, (0 : ℚ)⟩] :
        List ROCPoint).map ROCPoint.tpr).Pairwise (fun a b => a ≤ b) :=
  roc_ordering_invariants [true, false] [1, 0] _ compute_roc_example

theorem roc_endpoint_invariants_witness :
    ([⟨0, 0, ⊤⟩, ⟨0, 1, (1 : ℚ)⟩, ⟨1, 1, (0 : ℚ)⟩] :
        List ROCPoint).head? = some rocBoundary ∧
    fprAt [⟨0, 0, ⊤⟩, ⟨0, 1, (1 : ℚ)⟩, ⟨1, 1, (0 : ℚ)⟩]
      (([⟨0, 0, ⊤⟩, ⟨0, 1, (1 : ℚ)⟩, ⟨1, 1, (0 : ℚ)⟩] :
        List ROCPoint).length - 1) = 1 ∧
    tprAt [⟨0, 0, ⊤⟩, ⟨0, 1, (1 : ℚ)⟩, ⟨1, 1, (0 : ℚ)⟩]
      (([⟨0, 0, ⊤⟩, ⟨0, 1, (1 : ℚ)⟩, ⟨1, 1, (0 : ℚ)⟩] :
        List ROCPoint).length - 1) = 1 ∧
    ∀ p ∈ ([⟨0, 0, ⊤⟩, ⟨0, 1, (1 : ℚ)⟩, ⟨1, 1, (0 : ℚ)⟩] : List ROCPoint),
      0 ≤ p.fpr ∧ p.fpr ≤ 1 ∧ 0 ≤ p.tpr ∧ p.tpr ≤ 1 :=
  roc_endpoint_invariants [true, false] [1, 0] _ compute_roc_example

theorem roc_single_class_error_witness :
    compute_roc [true, true, true, true] [1, 2, 3, 4] =
      .error .undefinedRate :=
  roc_single_class_error [true, true, true, true] [1, 2, 3, 4]
    (by decide) (by decide) (Or.inl (by decide))

theorem auc_trapezoid_bounds_witness :
    ValidROC [rocBoundary, ⟨1, 1, (0 : ℚ)⟩] ∧
    (compute_auc [rocBoundary, ⟨1, 1, (0 : ℚ)⟩] =
        .ok (∑ i ∈ Finset.range
            (([rocBoundary, ⟨1, 1, (0 : ℚ)⟩] : List ROCPoint).length - 1),
          (fprAt [rocBoundary, ⟨1, 1, (0 : ℚ)⟩] (i + 1) -
              fprAt [rocBoundary, ⟨1, 1, (0 : ℚ)⟩] i) *
            (tprAt [rocBoundary, ⟨1, 1, (0 : ℚ)⟩] (i + 1) +
              tprAt [rocBoundary, ⟨1, 1, (0 : ℚ)⟩] i) / 2) ∧
      ∀ A : ℚ, compute_auc [rocBoundary, ⟨1, 1, (0 : ℚ)⟩] = .ok A →
        0 ≤ A ∧ A ≤ 1 ∧
        ((∀ p ∈ ([rocBoundary, ⟨1, 1, (0 : ℚ)⟩] : List ROCPoint),
            p.fpr = p.tpr) → A = 1 / 2)) :=
  ⟨by decide, auc_trapezoid_bounds [rocBoundary, ⟨1, 1, (0 : ℚ)⟩] (by decide)⟩

theorem roc_curve_example : roc_curve [true, false] [1, 0] =
    .ok ([0, 0, 1], [0, 1, 1],
      [⊤, ((1 : ℚ) : WithTop ℚ), ((0 : ℚ) : WithTop ℚ)]) := by
  simp only [roc_curve, compute_roc_example]
  rfl

theorem roc_curve_parallel_outputs_witness :
    ∃ pts, compute_roc [true, false] [1, 0] = .ok pts ∧
      ([0, 0, 1] : List ℚ) = pts.map ROCPoint.fpr ∧
      ([0, 1, 1] : List ℚ) = pts.map ROCPoint.tpr ∧
      ([⊤, ((1 : ℚ) : WithTop ℚ), ((0 : ℚ) : WithTop ℚ)] :
        List (WithTop ℚ)) = pts.map ROCPoint.threshold ∧
      ([0, 0, 1] : List ℚ).length = pts.length ∧
      ([0, 1, 1] : List ℚ).length = pts.length ∧
      ([⊤, ((1 : ℚ) : WithTop ℚ), ((0 : ℚ) : WithTop ℚ)] :
        List (WithTop ℚ)).length = pts.length :=
  roc_curve_parallel_outputs [true, false] [1, 0] _ _ _ roc_curve_example

/-! ### Claim C6: error policy -/

/-- A length mismatch or an empty input makes compute_roc fail with
InvalidInputError. -/
theorem compute_roc_invalid (labels : List Bool) (scores : List ℚ)
    (h : labels.length ≠ scores.length ∨ labels = []) :
    compute_roc labels scores = .error .invalidInput := by
  rw [compute_roc, if_pos h]

/-- Fewer than two points make compute_auc fail with InvalidInputError. -/
theorem compute_auc_short (points : List ROCPoint) (h : points.length < 2) :
    compute_auc points = .error .invalidInput := by
  rw [compute_auc, if_pos h]

/-- Counterexample to claim C6 as stated: the claim requires
InvalidInputError whenever the labels hold anything other than exactly two
distinct values, but on the single-class input labels = [true, true] the
evaluator fails with UndefinedRateError, not InvalidInputError. -/
theorem roc_single_class_not_invalid_input :
    compute_roc [true, true] [0, 1] = .error .undefinedRate ∧
    compute_roc [true, true] [0, 1] ≠ .error .invalidInput := by
  constructor
  · exact compute_roc_single_class [true, true] [0, 1] (by decide) (by decide)
      (Or.inl (by decide))
  · rw [compute_roc_single_class [true, true] [0, 1] (by decide) (by decide)
      (Or.inl (by decide))]
    decide

/-- Claim C6 (amended): compute_roc fails with InvalidInputError whenever
the label and score lengths differ or the input is empty, while a
single-class label set fails with UndefinedRateError instead of
InvalidInputError; compute_auc fails with InvalidInputError whenever fewer
than two points are supplied.  All failures yield an error value and no
partial result. -/
theorem roc_auc_error_policy :
    (∀ (labels : List Bool) (scores : List ℚ),
      labels.length ≠ scores.length ∨ labels = [] →
        compute_roc labels scores = .error .invalidInput) ∧
    (∀ (labels : List Bool) (scores : List ℚ),
      labels.length = scores.length → labels ≠ [] →
      ((∀ l ∈ labels, l = true) ∨ (∀ l ∈ labels, l = false)) →
        compute_roc labels scores = .error .undefinedRate) ∧
    (∀ points : List ROCPoint, points.length < 2 →
        compute_auc points = .error .invalidInput) :=
  ⟨compute_roc_invalid, compute_roc_single_class, compute_auc_short⟩

theorem roc_auc_error_policy_witness :
    compute_roc [true, false, true] [1, 2, 3, 4] = .error .invalidInput ∧
    compute_roc [true, true] [0, 1] = .error .undefinedRate ∧
    compute_auc [rocBoundary] = .error .invalidInput :=
  ⟨roc_auc_error_policy.1 [true, false, true] [1, 2, 3, 4]
      (Or.inl (by decide)),
   roc_auc_error_policy.2.1 [true, true] [0, 1] (by decide) (by decide)
      (Or.inl (by decide)),
   roc_auc_error_policy.2.2 [rocBoundary] (by decide)⟩

/-! ### Claim C7: invariance under strictly monotone score transforms -/

/-- Relabel the threshold of a point along a score transform; the rates
are untouched. -/
def retag (φ : ℚ → ℚ) (p : ROCPoint) : ROCPoint :=
  ⟨p.fpr, p.tpr, p.threshold.map φ⟩

theorem dedup_map_of_injective (φ : ℚ → ℚ) (hinj : Function.Injective φ) :
    ∀ l : List ℚ, (l.map φ).dedup = l.dedup.map φ
  | [] => rfl
  | a :: l => by
    by_cases h : a ∈ l
    · rw [List.map_cons, List.dedup_cons_of_mem (List.mem_map_of_mem φ h),
        List.dedup_cons_of_mem h, dedup_map_of_injective φ hinj l]
    · have h2 : φ a ∉ l.map φ := by
        intro hc
        rcases List.mem_map.mp hc with ⟨b, hb, hba⟩
        exact h (hinj hba ▸ hb)
      rw [List.map_cons, List.dedup_cons_of_not_mem h2,
        List.dedup_cons_of_not_mem h, List.map_cons,
        dedup_map_of_injective φ hinj l]

theorem orderedInsert_map (φ : ℚ → ℚ) (hmono : StrictMono φ) (a : ℚ) :
    ∀ l : List ℚ,
      List.orderedInsert (fun x y => y ≤ x) (φ a) (l.map φ) =
        (List.orderedInsert (fun x y => y ≤ x) a l).map φ
  | [] => rfl
  | b :: l => by
    by_cases h : b ≤ a
    · have h2 : φ b ≤ φ a := hmono.le_iff_le.mpr h
      simp only [List.map_cons, List.orderedInsert, if_pos h, if_pos h2,
        List.map_cons]
    · have h2 : ¬ φ b ≤ φ a := fun hc => h (hmono.le_iff_le.mp hc)
      simp only [List.map_cons, List.orderedInsert, if_neg h, if_neg h2,
        List.map_cons, orderedInsert_map φ hmono a l]

theorem insertionSort_map (φ : ℚ → ℚ) (hmono : StrictMono φ) :
    ∀ l : List ℚ,
      List.insertionSort (fun x y => y ≤ x) (l.map φ) =
        (List.insertionSort (fun x y => y ≤ x) l).map φ
  | [] => rfl
  | b :: l => by
    rw [List.map_cons, List.insertionSort, List.insertionSort,
      insertionSort_map φ hmono l, orderedInsert_map φ hmono b]

theorem thresholdsOf_map (φ : ℚ → ℚ) (hmono : StrictMono φ)
    (scores : List ℚ) :
    thresholdsOf (scores.map φ) = (thresholdsOf scores).map φ := by
  rw [thresholdsOf, thresholdsOf,
    dedup_map_of_injective φ hmono.injective scores,
    insertionSort_map φ hmono]

theorem tpCount_map (φ : ℚ → ℚ) (hmono : StrictMono φ)
    (labels : List Bool) (scores : List ℚ) (t : ℚ) :
    tpCount (labels.zip (scores.map φ)) (φ t) =
      tpCount (labels.zip scores) t := by
  rw [tpCount, tpCount, List.zip_map_right, List.countP_map]
  apply List.countP_congr
  intro x _
  simp [posHit, Prod.map, hmono.le_iff_le]

theorem fpCount_map (φ : ℚ → ℚ) (hmono : StrictMono φ)
    (labels : List Bool) (scores : List ℚ) (t : ℚ) :
    fpCount (labels.zip (scores.map φ)) (φ t) =
      fpCount (labels.zip scores) t := by
  rw [fpCount, fpCount, List.zip_map_right, List.countP_map]
  apply List.countP_congr
  intro x _
  simp [negHit, Prod.map, hmono.le_iff_le]

theorem mkPoint_map (φ : ℚ → ℚ) (hmono : StrictMono φ)
    (labels : List Bool) (scores : List ℚ) (P N : ℕ) (t : ℚ) :
    mkPoint (labels.zip (scores.map φ)) P N (φ t) =
      retag φ (mkPoint (labels.zip scores) P N t) := by
  rw [mkPoint, mkPoint, retag]
  simp only [tpCount_map φ hmono, fpCount_map φ hmono]
  congr 1

theorem compute_roc_map (labels : List Bool) (scores : List ℚ)
    (φ : ℚ → ℚ) (hmono : StrictMono φ) :
    compute_roc labels (scores.map φ) =
      (compute_roc labels scores).map (List.map (retag φ)) := by
  rw [compute_roc, compute_roc, List.length_map]
  by_cases h1 : labels.length ≠ scores.length ∨ labels = []
  · rw [if_pos h1, if_pos h1]
    rfl
  · rw [if_neg h1, if_neg h1]
    by_cases h2 : totalPos labels = 0 ∨ totalNeg labels = 0
    · rw [if_pos h2, if_pos h2]
      rfl
    · rw [if_neg h2, if_neg h2]
      show _ = Except.ok _
      rw [thresholdsOf_map φ hmono scores]
      congr 1
      rw [List.map_cons, List.map_map, List.map_map]
      congr 1
      have hfun : mkPoint (labels.zip (scores.map φ)) (totalPos labels)
            (totalNeg labels) ∘ φ =
          retag φ ∘ mkPoint (labels.zip scores) (totalPos labels)
            (totalNeg labels) := by
        funext t
        show mkPoint (labels.zip (scores.map φ)) _ _ (φ t) = _
        rw [mkPoint_map φ hmono]
        rfl
      rw [hfun]

theorem trapSum_retag (φ : ℚ → ℚ) : ∀ l : List ROCPoint,
    trapSum (l.map (retag φ)) = trapSum l
  | [] => rfl
  | [a] => rfl
  | a :: b :: rest => by
    rw [List.map_cons, List.map_cons, trapSum, trapSum]
    rw [← List.map_cons (retag φ) b rest]
    rw [trapSum_retag φ (b :: rest)]
    rfl

/-- Claim C7: applying a strictly monotonically increasing transform to
all scores leaves the computed AUC unchanged. -/
theorem auc_monotone_transform_invariant (labels : List Bool)
    (scores : List ℚ) (φ : ℚ → ℚ) (hmono : StrictMono φ) :
    aucOf labels (scores.map φ) = aucOf labels scores := by
  rw [aucOf, aucOf, compute_roc_map labels scores φ hmono]
  cases compute_roc labels scores with
  | error e => rfl
  | ok pts =>
      show compute_auc (pts.map (retag φ)) = compute_auc pts
      rw [compute_auc, compute_auc, List.length_map]
      by_cases h : pts.length < 2
      · rw [if_pos h, if_pos h]
      · rw [if_neg h, if_neg h, trapSum_retag]

theorem auc_monotone_transform_invariant_witness :
    aucOf [true, false] (([1, 0] : List ℚ).map (fun x => 2 * x)) =
      aucOf [true, false] [1, 0] :=
  auc_monotone_transform_invariant [true, false] [1, 0] (fun x => 2 * x)
    (fun a b h => by
      simpa using (mul_lt_mul_left (by norm_num : (0 : ℚ) < 2)).mpr h)

/-! ### Claim C8: flipping the labels complements the AUC -/

/-- Swap the two rates of a point: the ROC point of the flipped-label
problem at the same threshold. -/
def swapPoint (p : ROCPoint) : ROCPoint := ⟨p.tpr, p.fpr, p.threshold⟩

theorem totalPos_flip (labels : List Bool) :
    totalPos (labels.map not) = totalNeg labels := by
  rw [totalPos, totalNeg, List.countP_map]
  rfl

theorem totalNeg_flip (labels : List Bool) :
    totalNeg (labels.map not) = totalPos labels := by
  rw [totalPos, totalNeg, List.countP_map]
  apply List.countP_congr
  intro x _
  simp

theorem tpCount_flip (labels : List Bool) (scores : List ℚ) (t : ℚ) :
    tpCount ((labels.map not).zip scores) t = fpCount (labels.zip scores) t := by
  rw [tpCount, fpCount, List.zip_map_left, List.countP_map]
  apply List.countP_congr
  intro x _
  simp [posHit, negHit, Prod.map]

theorem fpCount_flip (labels : List Bool) (scores : List ℚ) (t : ℚ) :
    fpCount ((labels.map not).zip scores) t = tpCount (labels.zip scores) t := by
  rw [tpCount, fpCount, List.zip_map_left, List.countP_map]
  apply List.countP_congr
  intro x _
  simp [posHit, negHit, Prod.map]

theorem mkPoint_flip (labels : List Bool) (scores : List ℚ) (t : ℚ) :
    mkPoint ((labels.map not).zip scores) (totalPos (labels.map not))
        (totalNeg (labels.map not)) t =
      swapPoint (mkPoint (labels.zip scores) (totalPos labels)
        (totalNeg labels) t) := by
  rw [mkPoint, mkPoint, swapPoint]
  simp only [tpCount_flip, fpCount_flip, totalPos_flip, totalNeg_flip]

theorem compute_roc_flip (labels : List Bool) (scores : List ℚ) :
    compute_roc (labels.map not) scores =
      (compute_roc labels scores).map (List.map swapPoint) := by
  rw [compute_roc, compute_roc, List.length_map]
  have hemp : (labels.map not = []) ↔ (labels = []) := by
    constructor
    · intro h
      cases labels with
      | nil => rfl
      | cons a l => cases h
    · intro h
      rw [h]
      rfl
  by_cases h1 : labels.length ≠ scores.length ∨ labels = []
  · have h1a : labels.length ≠ scores.length ∨ labels.map not = [] := by
      rcases h1 with h | h
      · exact Or.inl h
      · exact Or.inr (hemp.mpr h)
    rw [if_pos h1a, if_pos h1]
    rfl
  · have h1a : ¬(labels.length ≠ scores.length ∨ labels.map not = []) := by
      intro hc
      rcases hc with h | h
      · exact h1 (Or.inl h)
      · exact h1 (Or.inr (hemp.mp h))
    rw [if_neg h1a, if_neg h1]
    rw [totalPos_flip, totalNeg_flip]
    by_cases h2 : totalPos labels = 0 ∨ totalNeg labels = 0
    · have h2a : totalNeg labels = 0 ∨ totalPos labels = 0 := h2.symm
      rw [if_pos h2a, if_pos h2]
      rfl
    · have h2a : ¬(totalNeg labels = 0 ∨ totalPos labels = 0) := by
        intro hc
        exact h2 hc.symm
      rw [if_neg h2a, if_neg h2]
      have htail : List.map (mkPoint ((labels.map not).zip scores)
            (totalNeg labels) (totalPos labels)) (thresholdsOf scores) =
          List.map (swapPoint ∘ mkPoint (labels.zip scores) (totalPos labels)
            (totalNeg labels)) (thresholdsOf scores) := by
        apply List.map_congr_left
        intro t _
        show mkPoint ((labels.map not).zip scores) _ _ t = _
        conv_lhs => rw [(totalPos_flip labels).symm, (totalNeg_flip labels).symm]
        rw [mkPoint_flip]
        rfl
      show Except.ok _ = Except.ok _
      rw [List.map_cons, List.map_map, htail]
      rfl

theorem fprAt_swap (l : List ROCPoint) (i : ℕ) :
    fprAt (l.map swapPoint) i = tprAt l i := by
  by_cases h : i < l.length
  · have h2 : i < (l.map swapPoint).length := by
      rw [List.length_map]
      exact h
    rw [fprAt, tprAt, List.getD_eq_getElem _ _ h2, List.getD_eq_getElem _ _ h,
      List.getElem_map]
    rfl
  · have h2 : (l.map swapPoint).length ≤ i := by
      rw [List.length_map]
      omega
    rw [fprAt, tprAt, List.getD_eq_default _ _ h2,
      List.getD_eq_default _ _ (by omega)]
    rfl

theorem tprAt_swap (l : List ROCPoint) (i : ℕ) :
    tprAt (l.map swapPoint) i = fprAt l i := by
  by_cases h : i < l.length
  · have h2 : i < (l.map swapPoint).length := by
      rw [List.length_map]
      exact h
    rw [fprAt, tprAt, List.getD_eq_getElem _ _ h2, List.getD_eq_getElem _ _ h,
      List.getElem_map]
    rfl
  · have h2 : (l.map swapPoint).length ≤ i := by
      rw [List.length_map]
      omega
    rw [fprAt, tprAt, List.getD_eq_default _ _ h2,
      List.getD_eq_default _ _ (by omega)]
    rfl

theorem trapSum_add_swap (l : List ROCPoint) :
    trapSum l + trapSum (l.map swapPoint) =
      fprAt l (l.length - 1) * tprAt l (l.length - 1) -
        fprAt l 0 * tprAt l 0 := by
  rw [trapSum_eq_sum, trapSum_eq_sum (l.map swapPoint), List.length_map]
  rw [← Finset.sum_add_distrib]
  have hcong : ∀ i ∈ Finset.range (l.length - 1),
      (fprAt l (i + 1) - fprAt l i) * (tprAt l (i + 1) + tprAt l i) / 2 +
        (fprAt (l.map swapPoint) (i + 1) - fprAt (l.map swapPoint) i) *
          (tprAt (l.map swapPoint) (i + 1) + tprAt (l.map swapPoint) i) / 2 =
      (fun j => fprAt l j * tprAt l j) (i + 1) -
        (fun j => fprAt l j * tprAt l j) i := by
    intro i _
    rw [fprAt_swap, fprAt_swap, tprAt_swap, tprAt_swap]
    ring
  rw [Finset.sum_congr rfl hcong,
    Finset.sum_range_sub (fun j => fprAt l j * tprAt l j) (l.length - 1)]

theorem roc_first_rates {labels : List Bool} {scores : List ℚ}
    {pts : List ROCPoint} (hok : compute_roc labels scores = .ok pts) :
    fprAt pts 0 = 0 ∧ tprAt pts 0 = 0 := by
  rw [roc_fields hok]
  constructor <;> rfl

/-- Claim C8: flipping every label while keeping the scores fixed turns a
computed AUC of A into 1 - A. -/
theorem auc_label_flip_complement (labels : List Bool) (scores : List ℚ)
    (A : ℚ) (hA : aucOf labels scores = .ok A) :
    aucOf (labels.map not) scores = .ok (1 - A) := by
  rw [aucOf] at hA
  cases hok : compute_roc labels scores with
  | error e =>
      rw [hok] at hA
      cases hA
  | ok pts =>
      rw [hok] at hA
      replace hA : compute_auc pts = .ok A := hA
      rw [compute_auc] at hA
      by_cases hl : pts.length < 2
      · rw [if_pos hl] at hA
        cases hA
      · rw [if_neg hl] at hA
        have hAeq : A = trapSum pts := (Except.ok.inj hA).symm
        rw [aucOf, compute_roc_flip labels scores, hok]
        show compute_auc (pts.map swapPoint) = _
        rw [compute_auc, List.length_map, if_neg hl]
        have hsum := trapSum_add_swap pts
        have hfirst := roc_first_rates hok
        have hlast := roc_last hok
        rw [hlast.1, hlast.2, hfirst.1, hfirst.2] at hsum
        have : trapSum (pts.map swapPoint) = 1 - A := by
          rw [hAeq]
          linarith [hsum]
        rw [this]

theorem auc_label_flip_complement_witness :
    aucOf ([true, false].map not) [1, 0] = .ok (1 - 1) :=
  auc_label_flip_complement [true, false] [1, 0] 1 aucOf_example

/-! ### Claim C9: perfect separation gives AUC exactly 1 -/

theorem sorted_first_max {l : List ℚ} (hw : l.Pairwise (fun a b => b ≤ a))
    {x : ℚ} (hx : x ∈ l) : x ≤ l.getD 0 0 := by
  rcases List.mem_iff_getElem.mp hx with ⟨j, hj, hjx⟩
  have h := getD_le_getD_of_sorted hw (Nat.zero_le j) hj 0
  rw [List.getD_eq_getElem _ _ hj, hjx] at h
  exact h

theorem sorted_strict_adjacent {l : List ℚ}
    (hs : l.Pairwise (fun a b => b < a)) {i : ℕ} (hi : i + 1 < l.length)
    {x : ℚ} (hx : x ∈ l) (hgt : l.getD (i + 1) 0 < x) : l.getD i 0 ≤ x := by
  have hw : l.Pairwise (fun a b => b ≤ a) := hs.imp le_of_lt
  rcases List.mem_iff_getElem.mp hx with ⟨j, hj, hjx⟩
  by_cases hji : j ≤ i
  · have h := getD_le_getD_of_sorted hw hji (by omega) 0
    rw [List.getD_eq_getElem _ _ hj, hjx] at h
    exact h
  · have hji2 : i + 1 ≤ j := by omega
    have h := getD_le_getD_of_sorted hw hji2 hj 0
    rw [List.getD_eq_getElem _ _ hj, hjx] at h
    exact absurd hgt (not_lt.mpr h)

theorem fpCount_pos_exists {pairs : List (Bool × ℚ)} {t : ℚ}
    (h : fpCount pairs t ≠ 0) : ∃ q ∈ pairs, q.1 = false ∧ t ≤ q.2 := by
  rw [fpCount] at h
  by_contra hc
  push_neg at hc
  apply h
  rw [List.countP_eq_zero]
  intro a ha
  intro hq
  rcases Bool.and_eq_true_iff.mp hq with ⟨h1, h2⟩
  have ha1 : a.1 = false := by
    cases hab : a.1
    · rfl
    · rw [hab] at h1
      cases h1
  exact absurd (of_decide_eq_true h2) (not_le.mpr (hc a ha ha1))

theorem tpCount_full_of_neg {labels : List Bool} {scores : List ℚ}
    (hlen : labels.length = scores.length)
    (hsep : ∀ p ∈ labels.zip scores, ∀ q ∈ labels.zip scores,
      p.1 = true → q.1 = false → q.2 < p.2)
    {t : ℚ} {q : Bool × ℚ} (hq : q ∈ labels.zip scores) (hq1 : q.1 = false)
    (hq2 : t ≤ q.2) : tpCount (labels.zip scores) t = totalPos labels := by
  rw [tpCount_eq_countP, totalPos]
  apply countP_zip_hit_eq (fun l => l) (fun s => decide (t ≤ s))
    labels scores hlen
  intro p hp hp1
  have hqp : q.2 < p.2 := hsep p hp q hq (by simpa using hp1) hq1
  exact decide_eq_true (le_trans hq2 (le_of_lt hqp))

theorem roc_point_at {labels : List Bool} {scores : List ℚ}
    {pts : List ROCPoint} (hok : compute_roc labels scores = .ok pts)
    (k : ℕ) (hk : k < (thresholdsOf scores).length) :
    pts.getD (k + 1) rocBoundary =
      mkPoint (labels.zip scores) (totalPos labels) (totalNeg labels)
        ((thresholdsOf scores).getD k 0) := by
  have hmap : k < ((thresholdsOf scores).map
      (mkPoint (labels.zip scores) (totalPos labels) (totalNeg labels))).length := by
    rw [List.length_map]
    exact hk
  rw [roc_fields hok, List.getD_cons_succ, List.getD_eq_getElem _ _ hmap,
    List.getElem_map, List.getD_eq_getElem _ _ hk]

theorem mkPoint_fpr (pairs : List (Bool × ℚ)) (P N : ℕ) (t : ℚ) :
    (mkPoint pairs P N t).fpr = (fpCount pairs t : ℚ) / (N : ℚ) := rfl

theorem mkPoint_tpr (pairs : List (Bool × ℚ)) (P N : ℕ) (t : ℚ) :
    (mkPoint pairs P N t).tpr = (tpCount pairs t : ℚ) / (P : ℚ) := rfl

/-- Claim C9: when every positive observation scores strictly higher than
every negative observation, the computed AUC is exactly 1. -/
theorem auc_perfect_separation (labels : List Bool) (scores : List ℚ)
    (pts : List ROCPoint) (hok : compute_roc labels scores = .ok pts)
    (hsep : ∀ p ∈ labels.zip scores, ∀ q ∈ labels.zip scores,
      p.1 = true → q.1 = false → q.2 < p.2) :
    aucOf labels scores = .ok 1 := by
  have hthrne : thresholdsOf scores ≠ [] := fun hc =>
    roc_scores_ne_nil hok (thresholdsOf_eq_nil.mp hc)
  have hl : ¬ pts.length < 2 := by
    have hlen1 := roc_length hok
    have hlen2 := List.length_pos.mpr hthrne
    omega
  rw [aucOf, hok]
  show compute_auc pts = .ok 1
  rw [compute_auc, if_neg hl]
  have htrap : trapSum pts = 1 := by
        obtain ⟨hlen, hne, hP, hN, hpts⟩ := compute_roc_ok_iff.mp hok
        have hthrlen : pts.length = (thresholdsOf scores).length + 1 :=
          roc_length hok
        have hkey : ∀ i ∈ Finset.range (pts.length - 1),
            (fprAt pts (i + 1) - fprAt pts i) *
              (tprAt pts (i + 1) + tprAt pts i) / 2 =
            (fun j => fprAt pts j) (i + 1) - (fun j => fprAt pts j) i := by
          intro i hi
          rw [Finset.mem_range] at hi
          have hi2 : i < (thresholdsOf scores).length := by omega
          cases i with
          | zero =>
            show (fprAt pts (0 + 1) - fprAt pts 0) *
                (tprAt pts (0 + 1) + tprAt pts 0) / 2 =
              fprAt pts (0 + 1) - fprAt pts 0
            have hfp0 : fpCount (labels.zip scores)
                ((thresholdsOf scores).getD 0 0) = 0 := by
              by_contra hfp
              obtain ⟨q, hq, hq1, hq2⟩ := fpCount_pos_exists hfp
              obtain ⟨p, hp, hp1⟩ := exists_zip_of_countP (fun l => l)
                labels scores hlen hP
              have hqp : q.2 < p.2 := hsep p hp q hq (by simpa using hp1) hq1
              have hpmem : p.2 ∈ thresholdsOf scores :=
                mem_thresholdsOf.mpr (List.of_mem_zip hp).2
              have hqmem : q.2 ∈ thresholdsOf scores :=
                mem_thresholdsOf.mpr (List.of_mem_zip hq).2
              have hple := sorted_first_max (thresholdsOf_sorted scores) hpmem
              linarith
            have h1 : fprAt pts (0 + 1) = 0 := by
              rw [fprAt, roc_point_at hok 0 hi2, mkPoint_fpr, hfp0]
              norm_num
            have h0 : fprAt pts 0 = 0 := (roc_first_rates hok).1
            rw [h1, h0]
            ring
          | succ k =>
            show (fprAt pts (k + 1 + 1) - fprAt pts (k + 1)) *
                (tprAt pts (k + 1 + 1) + tprAt pts (k + 1)) / 2 =
              fprAt pts (k + 1 + 1) - fprAt pts (k + 1)
            have hk1 : k < (thresholdsOf scores).length := by omega
            have hk2 : k + 1 < (thresholdsOf scores).length := hi2
            have hpta := roc_point_at hok k hk1
            have hptb := roc_point_at hok (k + 1) hk2
            by_cases hfpb : fpCount (labels.zip scores)
                ((thresholdsOf scores).getD (k + 1) 0) = 0
            · have hba : (thresholdsOf scores).getD (k + 1) 0 ≤
                  (thresholdsOf scores).getD k 0 :=
                getD_le_getD_of_sorted (thresholdsOf_sorted scores)
                  (Nat.le_succ k) hk2 0
              have hfpa : fpCount (labels.zip scores)
                  ((thresholdsOf scores).getD k 0) = 0 := by
                have hanti := fpCount_antitone (labels.zip scores) hba
                omega
              have hb : fprAt pts (k + 1 + 1) = 0 := by
                rw [fprAt, hptb, mkPoint_fpr, hfpb]
                norm_num
              have ha : fprAt pts (k + 1) = 0 := by
                rw [fprAt, hpta, mkPoint_fpr, hfpa]
                norm_num
              rw [hb, ha]
              ring
            · obtain ⟨q, hq, hq1, hq2⟩ := fpCount_pos_exists hfpb
              have htpb : tpCount (labels.zip scores)
                  ((thresholdsOf scores).getD (k + 1) 0) = totalPos labels :=
                tpCount_full_of_neg hlen hsep hq hq1 hq2
              have htpa : tpCount (labels.zip scores)
                  ((thresholdsOf scores).getD k 0) = totalPos labels := by
                rw [tpCount_eq_countP, totalPos]
                apply countP_zip_hit_eq (fun l => l)
                  (fun s => decide ((thresholdsOf scores).getD k 0 ≤ s))
                  labels scores hlen
                intro p hp hp1
                have hqp : q.2 < p.2 :=
                  hsep p hp q hq (by simpa using hp1) hq1
                have hbp : (thresholdsOf scores).getD (k + 1) 0 < p.2 :=
                  lt_of_le_of_lt hq2 hqp
                have hpmem : p.2 ∈ thresholdsOf scores :=
                  mem_thresholdsOf.mpr (List.of_mem_zip hp).2
                exact decide_eq_true (sorted_strict_adjacent
                  (thresholdsOf_sorted_strict scores) hk2 hpmem hbp)
              have hPne : ((totalPos labels : ℚ)) ≠ 0 :=
                Nat.cast_ne_zero.mpr hP
              have htb : tprAt pts (k + 1 + 1) = 1 := by
                rw [tprAt, hptb, mkPoint_tpr, htpb, div_self hPne]
              have hta : tprAt pts (k + 1) = 1 := by
                rw [tprAt, hpta, mkPoint_tpr, htpa, div_self hPne]
              rw [htb, hta]
              ring
        rw [trapSum_eq_sum]
        rw [Finset.sum_congr rfl hkey]
        rw [Finset.sum_range_sub (fun j => fprAt pts j) (pts.length - 1)]
        show fprAt pts (pts.length - 1) - fprAt pts 0 = 1
        rw [(roc_last hok).1, (roc_first_rates hok).1]
        norm_num
  rw [htrap]

theorem auc_perfect_separation_witness :
    aucOf [true, false] [1, 0] = .ok 1 :=
  auc_perfect_separation [true, false] [1, 0]
    [⟨0, 0, ⊤⟩, ⟨0, 1, (1 : ℚ)⟩, ⟨1, 1, (0 : ℚ)⟩]
    compute_roc_example (by decide)
